import Mathlib

/-!
# Verification of the `camara-abierta` core algorithms

Shallow embedding of the two algorithmic cores of the repository:

* the **affiliation timeline consolidator** in `src/app/(tabs)/legislators.tsx`
  (`normalizeMilitancias`, `getCurrentMilitancia`, `mergeSequentialMilitancias`,
  `arePeriodsSequential`), and
* the **parliament seat layout engine** in `src/components/parliament-chart.tsx`
  (party grouping, alignment ordering, row allocation, angular position
  generation, lockstep seat-to-party assignment), together with the legacy
  duplicate chart in the same file.

Modelling conventions:

* Dates: every use of a date in the embedded code parses an ISO string with
  `new Date(...)` and then only compares or subtracts `getTime()` values
  (integer milliseconds since the epoch).  Dates are therefore modelled by
  their integer `getTime()` value (`Int`).
* JavaScript objects with string keys (`partyGroups`) preserve insertion order
  for non-index keys, and `Object.entries` returns that order; they are
  modelled as association lists grown at the tail.
* `Array.prototype.sort` is required to be stable (ES2019) and orders `a`
  before `b` when the comparator returns a nonpositive number; per the
  `SortCompare` specification a `NaN` comparator result is treated as `+0`.
  It is modelled by the stable `List.mergeSort` with the corresponding
  boolean "comes-no-later-than" test.
* Fallible operations (reading `array[i]` past the end, reading a property of
  `undefined`) are modelled in `Option`, `none` standing for the thrown
  `TypeError`.
* The angle `Math.PI * t` of a seat is represented by its rational coefficient
  `t` (field `anglePi`); `0/0 = NaN` (the `k = 1` row case) is represented by
  `none`.  Angle comparisons are unaffected because `π > 0`.
-/

namespace CamaraAbierta

/-- `Partido` from `src/app/(tabs)/legislators.tsx` (interface `Partido`). -/
structure Partido where
  Id : String
  Nombre : String
  Alias : String
deriving DecidableEq, Repr, Inhabited

/-- `Militancia` from `src/app/(tabs)/legislators.tsx`: one party-membership
period.  `FechaInicio`/`FechaTermino` are the `getTime()` values of the ISO
date strings (see the date modelling convention above). -/
structure Militancia where
  FechaInicio : Int
  FechaTermino : Int
  Partido : Partido
deriving DecidableEq, Repr, Inhabited

/-- `Militancias` from `src/app/(tabs)/legislators.tsx`: the upstream feed
yields either a single `Militancia` object or an array of them. -/
inductive Militancias where
  | single (m : Militancia)
  | array (ms : List Militancia)
deriving DecidableEq, Repr

/-- `normalizeMilitancias` from `src/app/(tabs)/legislators.tsx`:
`Array.isArray(militancias.Militancia) ? it : [it]`. -/
def normalizeMilitancias : Militancias → List Militancia
  | .array ms => ms
  | .single m => [m]

/-- `Diputado` from `src/app/(tabs)/legislators.tsx`.  `FechaNacimiento` is
kept as its raw string since the embedded functions never parse it. -/
structure Diputado where
  Id : Int
  Nombre : String
  Nombre2 : String
  ApellidoPaterno : String
  ApellidoMaterno : String
  FechaNacimiento : String
  RUT : String
  RUTDV : String
  Sexo : String
  Militancias : Militancias
deriving DecidableEq, Repr

/-- `Region` from `src/app/(tabs)/legislators.tsx`. -/
structure Region where
  Id : String
  Nombre : String
deriving DecidableEq, Repr

/-- `Circunscripcion` from `src/app/(tabs)/legislators.tsx`. -/
structure Circunscripcion where
  Id : String
  Nombre : String
deriving DecidableEq, Repr

/-- `DiputadoPeriodo` from `src/app/(tabs)/legislators.tsx`; the optional
fields are `Option`s. -/
structure DiputadoPeriodo where
  Diputado : Diputado
  Region : Option Region := none
  Circunscripcion : Option Circunscripcion := none
  Email : Option String := none
  IdPeriodo : Option Int := none
deriving DecidableEq, Repr

/-- Whether a membership period contains the instant `now`:
`now >= new Date(m.FechaInicio) && now <= new Date(m.FechaTermino)` in
`getCurrentMilitancia`. -/
def containsNow (now : Int) (m : Militancia) : Bool :=
  decide (m.FechaInicio ≤ now) && decide (now ≤ m.FechaTermino)

/-- `getCurrentMilitancia` from `src/app/(tabs)/legislators.tsx`.  The source
reads the clock (`new Date()`) internally; the clock value is made an explicit
parameter `now`.  `militancias.find(...) || null` is `List.find?`. -/
def getCurrentMilitancia (now : Int) (diputado : Diputado) : Option Militancia :=
  let militancias := normalizeMilitancias diputado.Militancias
  militancias.find? (containsNow now)

/-- `1000 * 60 * 60 * 24` milliseconds, the divisor used by
`arePeriodsSequential`. -/
def msPerDay : Int := 1000 * 60 * 60 * 24

/-- `arePeriodsSequential` from `src/app/(tabs)/legislators.tsx`.  The source
computes `diffInDays = diffInMs / 86400000` in floating point and tests
`diffInDays >= 0 && diffInDays <= 1`; on integer-millisecond timestamps this
is exactly `0 ≤ diffInMs ∧ diffInMs ≤ 86400000` (the quotient of an integer
`diffInMs` by `86400000` rounds to a double `≤ 1` iff `diffInMs ≤ 86400000`,
and to one `≥ 0` iff `diffInMs ≥ 0`). -/
def arePeriodsSequential (endDate startDate : Int) : Bool :=
  let diffInMs := startDate - endDate
  decide (0 ≤ diffInMs) && decide (diffInMs ≤ msPerDay)

/-- `MergedMilitancia` from `src/app/(tabs)/legislators.tsx`. -/
structure MergedMilitancia where
  Partido : Partido
  FechaInicio : Int
  FechaTermino : Int
  periodCount : Nat
  originalMilitancias : List Militancia
deriving DecidableEq, Repr, Inhabited

/-- The fresh entry pushed by the `else` branch of the merge loop in
`mergeSequentialMilitancias`. -/
def newMergedEntry (militancia : Militancia) : MergedMilitancia :=
  { Partido := militancia.Partido
    FechaInicio := militancia.FechaInicio
    FechaTermino := militancia.FechaTermino
    periodCount := 1
    originalMilitancias := [militancia] }

/-- The in-place extension of `lastMerged` performed by the `then` branch of
the merge loop (`lastMerged.FechaTermino = militancia.FechaTermino;
lastMerged.periodCount += 1; lastMerged.originalMilitancias.push(militancia)`). -/
def extendMergedEntry (lastMerged : MergedMilitancia) (militancia : Militancia) :
    MergedMilitancia :=
  { lastMerged with
      FechaTermino := militancia.FechaTermino
      periodCount := lastMerged.periodCount + 1
      originalMilitancias := lastMerged.originalMilitancias ++ [militancia] }

/-- The merge condition of the loop:
`lastMerged.Partido.Id === militancia.Partido.Id &&
 arePeriodsSequential(lastMerged.FechaTermino, militancia.FechaInicio)`. -/
def canMergeWith (lastMerged : MergedMilitancia) (militancia : Militancia) : Bool :=
  (lastMerged.Partido.Id == militancia.Partido.Id) &&
    arePeriodsSequential lastMerged.FechaTermino militancia.FechaInicio

/-- The merge scan of `mergeSequentialMilitancias`, from the point where the
output array is nonempty.  The imperative loop pushes records and mutates the
last pushed record in place; here the in-progress last record is the
accumulator `lastMerged` and is emitted when the scan moves past it. -/
def mergeRun (lastMerged : MergedMilitancia) : List Militancia → List MergedMilitancia
  | [] => [lastMerged]
  | militancia :: rest =>
    if canMergeWith lastMerged militancia then
      mergeRun (extendMergedEntry lastMerged militancia) rest
    else
      lastMerged :: mergeRun (newMergedEntry militancia) rest

/-- The merge scan of `mergeSequentialMilitancias` on the sorted list (on an
empty input the loop never runs and the empty array is returned). -/
def mergeSorted : List Militancia → List MergedMilitancia
  | [] => []
  | militancia :: rest => mergeRun (newMergedEntry militancia) rest

/-- The `[...normalized].sort((a, b) => aTime - bTime)` step: stable sort
ascending by `FechaInicio`. -/
def sortMilitancias (l : List Militancia) : List Militancia :=
  l.mergeSort (fun a b => decide (a.FechaInicio ≤ b.FechaInicio))

/-- `mergeSequentialMilitancias` from `src/app/(tabs)/legislators.tsx`. -/
def mergeSequentialMilitancias (militancias : Militancias) : List MergedMilitancia :=
  mergeSorted (sortMilitancias (normalizeMilitancias militancias))

/-! ## Parliament seat layout engine (`src/components/parliament-chart.tsx`) -/

/-- The three values of the `PARTY_ALIGNMENT` table. -/
inductive Alignment where
  | left
  | center
  | right
deriving DecidableEq, Repr, Inhabited

/-- The `PARTY_COLORS` object literal from `src/components/parliament-chart.tsx`
(insertion order preserved; the `DEFAULT` entry is the last one). -/
def PARTY_COLORS : List (String × String) :=
  [("PNL", "#00008B"), ("PREP", "#0066CC"), ("UDI", "#1E90FF"), ("RN", "#0080FF"),
   ("EVOP", "#4169E1"), ("DEM", "#87CEEB"), ("DC", "#FFA500"), ("AMA", "#FFFF00"),
   ("PSC", "#FF8C00"), ("PPD", "#FF6347"), ("PS", "#DC143C"), ("PR", "#FF4500"),
   ("LIBERAL", "#C71585"), ("PAH", "#FF69B4"), ("PH", "#FF1493"), ("PC", "#B22222"),
   ("FA", "#9932CC"), ("CS", "#8B008B"), ("PEV", "#4B0082"), ("FRVS", "#228B22"),
   ("IND", "#808080"), ("DEFAULT", "#A9A9A9")]

/-- `PARTY_COLORS[partyId] || PARTY_COLORS.DEFAULT` (every color string is
nonempty, so JavaScript falsiness coincides with absence). -/
def partyColor (partyId : String) : String :=
  (PARTY_COLORS.lookup partyId).getD "#A9A9A9"

/-- The `PARTY_ALIGNMENT` object literal from
`src/components/parliament-chart.tsx`. -/
def PARTY_ALIGNMENT : List (String × Alignment) :=
  [("PC", .left), ("FA", .left), ("CS", .left), ("PEV", .left),
   ("PS", .left), ("PPD", .left), ("PR", .left), ("LIBERAL", .left),
   ("PAH", .left), ("PH", .left), ("PSC", .center),
   ("DC", .center), ("AMA", .center), ("DEM", .center),
   ("EVOP", .right), ("RN", .right), ("UDI", .right), ("PREP", .right),
   ("PNL", .right), ("FRVS", .center), ("IND", .center)]

/-- `PARTY_ALIGNMENT[partyId] || "center"`. -/
def partyAlignment (partyId : String) : Alignment :=
  (PARTY_ALIGNMENT.lookup partyId).getD .center

/-- The per-party accumulator record of the grouping `reduce` in
`ParliamentChart`. -/
structure PartyGroup where
  partyName : String
  partyAlias : String
  count : Nat
  color : String
  alignment : Alignment
deriving DecidableEq, Repr, Inhabited

/-- `const partyId = currentParty?.Partido.Alias || "IND"`: `null` current
party, and an empty (falsy) alias string, both degrade to `"IND"`. -/
def partyIdOf (now : Int) (leg : DiputadoPeriodo) : String :=
  match getCurrentMilitancia now leg.Diputado with
  | some currentParty => if currentParty.Partido.Alias = "" then "IND" else currentParty.Partido.Alias
  | none => "IND"

/-- The fresh group record created by the grouping `reduce` when `partyId` is
not yet a key (`count: 0`, before the unconditional `count++`). -/
def freshGroup (now : Int) (leg : DiputadoPeriodo) (partyId : String) : PartyGroup :=
  { partyName :=
      match getCurrentMilitancia now leg.Diputado with
      | some currentParty =>
        if currentParty.Partido.Nombre = "" then "Independiente" else currentParty.Partido.Nombre
      | none => "Independiente"
    partyAlias := partyId
    count := 0
    color := partyColor partyId
    alignment := partyAlignment partyId }

/-- One step of the grouping `reduce`: create the entry if absent (JavaScript
object insertion order = append at the tail), then `acc[partyId].count++`. -/
def bumpGroup : List (String × PartyGroup) → String → PartyGroup → List (String × PartyGroup)
  | [], partyId, fresh => [(partyId, { fresh with count := fresh.count + 1 })]
  | (k, g) :: rest, partyId, fresh =>
    if k = partyId then (k, { g with count := g.count + 1 }) :: rest
    else (k, g) :: bumpGroup rest partyId fresh

/-- The `legislators.reduce(...)` grouping of `ParliamentChart`, as the
insertion-ordered association list that `Object.entries` later reads back. -/
def partyGroupsOf (now : Int) (legislators : List DiputadoPeriodo) :
    List (String × PartyGroup) :=
  legislators.foldl
    (fun acc leg => bumpGroup acc (partyIdOf now leg) (freshGroup now leg (partyIdOf now leg)))
    []

/-- `.sort(([, a], [, b]) => b.count - a.count)`: stable sort by descending
`count` (the comparator is nonpositive exactly when `b.count ≤ a.count`). -/
def sortPartiesDesc (parties : List (String × PartyGroup)) : List (String × PartyGroup) :=
  parties.mergeSort (fun a b => decide (b.2.count ≤ a.2.count))

/-- The `leftParties`/`centerParties`/`rightParties` buckets and the final
`sortedParties = [...leftParties, ...centerParties, ...rightParties.reverse()]`
of `ParliamentChart`. -/
def sortedPartiesOf (now : Int) (legislators : List DiputadoPeriodo) :
    List (String × PartyGroup) :=
  let partyGroups := partyGroupsOf now legislators
  let leftParties := sortPartiesDesc (partyGroups.filter (fun p => decide (p.2.alignment = .left)))
  let centerParties := sortPartiesDesc (partyGroups.filter (fun p => decide (p.2.alignment = .center)))
  let rightParties := sortPartiesDesc (partyGroups.filter (fun p => decide (p.2.alignment = .right)))
  leftParties ++ centerParties ++ rightParties.reverse

/-- `const rows = 5`. -/
def chartRows : Nat := 5

/-- `const baseSeatsPerRow = 20`. -/
def baseSeatsPerRow : Int := 20

/-- `seatsPerRowArray = Array.from({length: 5}, (_, i) => Math.round(20 + i*8))`
followed by `seatsPerRowArray[rows - 1] += totalSeats - 180`.  The arguments of
`Math.round` are exact integers, so it is the identity; the outermost entry can
become negative or exceed 52. -/
def seatsPerRowArray (totalSeats : Nat) : List Int :=
  let nominal := (List.range chartRows).map (fun i => baseSeatsPerRow + (i : Int) * 8)
  let totalCalculated := nominal.sum
  let adjustment := (totalSeats : Int) - totalCalculated
  nominal.set (chartRows - 1) (nominal.getD (chartRows - 1) 0 + adjustment)

/-- A generated seat position.  The Cartesian point of the source,
`x = size/2 + radius*cos(π*anglePi)` and `y = size/2 − radius*sin(π*anglePi)`,
is fully determined by `radius` and `anglePi`; the irrational trigonometric
values themselves are not needed by any claim, so the position is carried in
this determining form.  `anglePi = none` models the `NaN` angle produced by
`0/0` when a row holds exactly one seat. -/
structure SeatPosition where
  row : Nat
  radius : ℚ
  anglePi : Option ℚ
deriving DecidableEq, Repr

/-- `(size / 2) * (0.5 + row * 0.12)`. -/
def rowRadius (size : ℚ) (row : Nat) : ℚ :=
  (size / 2) * (1 / 2 + (row : ℚ) * (12 / 100))

/-- The inner seat loop of `ParliamentChart` for one row: for
`seat = 0 .. seatsInRow − 1` (no iterations when `seatsInRow ≤ 0`), the angle
is `Math.PI * (1 - seat / (seatsInRow - 1))`.  When `seatsInRow = 1` the
division is `0/0 = NaN` in JavaScript, and the angle is `NaN`, modelled by
`none` (rational division would silently produce `0`, so the case is split
explicitly). -/
def rowPositions (size : ℚ) (row : Nat) (seatsInRow : Int) : List SeatPosition :=
  (List.range seatsInRow.toNat).map (fun (seat : Nat) =>
    { row := row
      radius := rowRadius size row
      anglePi :=
        if seatsInRow = 1 then none
        else some (1 - (seat : ℚ) / ((seatsInRow : ℚ) - 1)) })

/-- The `allPositions` array of `ParliamentChart` before sorting: rows
`0 .. 4`, each contributing `seatsPerRowArray[row]` seats. -/
def allPositions (size : ℚ) (totalSeats : Nat) : List SeatPosition :=
  ((List.range chartRows).map
    (fun row => rowPositions size row ((seatsPerRowArray totalSeats).getD row 0))).flatten

/-- `allPositions.sort((a, b) => b.angle - a.angle)`: stable sort by
descending angle.  When an angle is `NaN` the comparator returns `NaN`, which
the ECMAScript `SortCompare` operation maps to `+0` (treated as a tie). -/
def sortByAngleDesc (positions : List SeatPosition) : List SeatPosition :=
  positions.mergeSort (fun a b =>
    match a.anglePi, b.anglePi with
    | some x, some y => decide (y ≤ x)
    | _, _ => true)

/-- A rendered seat of `ParliamentChart`: position plus the assigned party
color and alias. -/
structure Seat where
  pos : SeatPosition
  color : String
  partyAlias : String
deriving DecidableEq, Repr

/-- The `if (currentPartySeats >= currentPartyData.count) {...}` advance step
at the top of each assignment-loop iteration: when the current party is full,
`currentPartyIndex` is incremented and, if it is still in range, the next
party is loaded and `currentPartySeats` reset; when it runs past the end the
stale `currentPartyData` and `currentPartySeats` are kept. -/
def advanceParty (sortedParties : List (String × PartyGroup))
    (currentPartyIndex currentPartySeats : Nat) (currentPartyData : PartyGroup) :
    Nat × Nat × PartyGroup :=
  if currentPartyData.count ≤ currentPartySeats then
    match sortedParties.get? (currentPartyIndex + 1) with
    | some p => (currentPartyIndex + 1, 0, p.2)
    | none => (currentPartyIndex + 1, currentPartySeats, currentPartyData)
  else (currentPartyIndex, currentPartySeats, currentPartyData)

/-- The seat-assignment loop `for (let i = 0; i < totalSeats; i++)` of
`ParliamentChart`.  The fuel is the number of remaining iterations; the
position list holds `allPositions[i], allPositions[i+1], ...`.  `none` models
the `TypeError` JavaScript would throw on reading a property of `undefined`
(a missing `allPositions[i]`, or an absent `currentPartyData`).  After the
advance step the seat is pushed with the (possibly new) current party's color
and alias and `currentPartySeats` is incremented. -/
def assignGo (sortedParties : List (String × PartyGroup)) :
    Nat → List SeatPosition → Nat → Nat → Option PartyGroup → Option (List Seat)
  | 0, _, _, _, _ => some []
  | _ + 1, [], _, _, _ => none
  | _ + 1, _ :: _, _, _, none => none
  | n + 1, position :: positionsRest, currentPartyIndex, currentPartySeats,
      some currentPartyData =>
    match advanceParty sortedParties currentPartyIndex currentPartySeats currentPartyData with
    | (idx2, used2, data2) =>
      match assignGo sortedParties n positionsRest idx2 (used2 + 1) (some data2) with
      | none => none
      | some rest =>
        some ({ pos := position, color := data2.color, partyAlias := data2.partyAlias } :: rest)

/-- The result of one `ParliamentChart` layout computation: the `seats` array
(`none` if the assignment loop would throw) and the legend, which renders
`sortedParties` in order. -/
structure LayoutResult where
  seats : Option (List Seat)
  legend : List (String × PartyGroup)
deriving DecidableEq, Repr

/-- The layout computation of `ParliamentChart` (lines 85-247 of
`src/components/parliament-chart.tsx`): grouping, alignment ordering, row
allocation, position generation, angle sort, and lockstep seat assignment.
`let [, currentPartyData] = sortedParties[0] || ["IND", partyGroups["IND"]]`
is the initial-data computation: the head of `sortedParties` if any, else the
(necessarily absent, when the chart is empty) `"IND"` entry of `partyGroups`. -/
def layout (now : Int) (legislators : List DiputadoPeriodo) (size : ℚ) : LayoutResult :=
  let partyGroups := partyGroupsOf now legislators
  let sortedParties := sortedPartiesOf now legislators
  let totalSeats := legislators.length
  let positions := sortByAngleDesc (allPositions size totalSeats)
  let initialData : Option PartyGroup :=
    match sortedParties.head? with
    | some p => some p.2
    | none => partyGroups.lookup "IND"
  { seats := assignGo sortedParties totalSeats positions 0 0 initialData
    legend := sortedParties }

/-! ### Legacy duplicate chart (lines 351-473 of the same file) -/

/-- `const seatsPerRow = Math.ceil(totalSeats / rows)` of the legacy chart
(`⌈n/5⌉` on naturals). -/
def legacySeatsPerRow (totalSeats : Nat) : Nat :=
  (totalSeats + (chartRows - 1)) / chartRows

/-- `Math.ceil(seatsPerRow * (1 + row * 0.2))` of the legacy chart, i.e.
`⌈s * (5 + row) / 5⌉` on naturals.  (`0.2` is inexact in binary floating
point; the double product differs from the rational one by less than one ulp,
and the claim proved about this function — exact total seat count — only uses
`seatsInRow ≥ seatsPerRow` together with the `seats.length < totalSeats`
loop guard, both insensitive to that error.) -/
def legacySeatsInRow (totalSeats : Nat) (row : Nat) : Nat :=
  (legacySeatsPerRow totalSeats * (chartRows + row) + (chartRows - 1)) / chartRows

/-- The legacy chart's nested seat loops, tracking the positions pushed: each
row `row` appends seats `0 ≤ seat < seatsInRow` while `seats.length <
totalSeats` (so `min seatsInRow (totalSeats − pushed)` seats), with radius
`(size/2) * (0.4 + row*0.15)` and angle `-π + (seat/(seatsInRow−1))·π`
(`NaN`, i.e. `none`, when `seatsInRow = 1`).  Exactly one seat object is
pushed per generated position, so `seats.length` equals the length of this
list. -/
def legacyPositions (size : ℚ) (totalSeats : Nat) : List SeatPosition :=
  (List.range chartRows).foldl
    (fun acc row =>
      let seatsInRow := legacySeatsInRow totalSeats row
      acc ++ (List.range (min seatsInRow (totalSeats - acc.length))).map (fun (seat : Nat) =>
        { row := row
          radius := (size / 2) * (2 / 5 + (row : ℚ) * (3 / 20))
          anglePi :=
            if seatsInRow = 1 then none
            else some (-1 + (seat : ℚ) / ((seatsInRow : ℚ) - 1)) }))
    []

/-! ## Characterization of the merge scan as maximal-run chunking

The loop condition of `mergeSequentialMilitancias` compares against
`lastMerged.Partido.Id` and `lastMerged.FechaTermino`, which (by the way the
record is created and extended) always equal the party id and the end date of
the interval processed in the previous iteration.  The scan therefore chunks
the sorted interval list into maximal runs of the consecutive-pair test
`canFollow`; this section proves that equivalence, which the claim theorems
then instantiate. -/

/-- The merge test between two consecutive intervals of the sorted list: same
party id and `arePeriodsSequential` of the earlier end against the later
start. -/
def canFollow (a b : Militancia) : Bool :=
  (a.Partido.Id == b.Partido.Id) && arePeriodsSequential a.FechaTermino b.FechaInicio

/-- Grouping of a list into maximal `canFollow`-runs: the chunk under
construction is `a :: t` and its last element is `t.getLastD a`. -/
def chunksGo (a : Militancia) (t : List Militancia) :
    List Militancia → List (List Militancia)
  | [] => [a :: t]
  | b :: rest =>
    if canFollow (t.getLastD a) b then chunksGo a (t ++ [b]) rest
    else (a :: t) :: chunksGo b [] rest

/-- Maximal `canFollow`-runs of a list. -/
def chunks : List Militancia → List (List Militancia)
  | [] => []
  | a :: rest => chunksGo a [] rest

/-- The merged record a chunk denotes: party and start date of the first
interval, end date of the last, one period per interval. -/
def recordOfChunk : List Militancia → MergedMilitancia
  | [] =>
    { Partido := ⟨"", "", ""⟩, FechaInicio := 0, FechaTermino := 0,
      periodCount := 0, originalMilitancias := [] }
  | a :: t =>
    { Partido := a.Partido
      FechaInicio := a.FechaInicio
      FechaTermino := (t.getLastD a).FechaTermino
      periodCount := t.length + 1
      originalMilitancias := a :: t }

/-- The claim-level merge condition (spec wording): same party and a gap in
the closed interval `[0, 1 day]`.  `canFollow_iff` below proves it equivalent
to the source-level test `canFollow`. -/
def sameParty01Gap (a b : Militancia) : Prop :=
  a.Partido.Id = b.Partido.Id ∧ 0 ≤ b.FechaInicio - a.FechaTermino ∧
    b.FechaInicio - a.FechaTermino ≤ msPerDay

/-! ## Concrete inputs used by the claim theorems and witnesses -/

def psParty : Partido := ⟨"PS", "Partido Socialista", "PS"⟩

def rnParty : Partido := ⟨"RN", "Renovación Nacional", "RN"⟩

/-- PS membership ending 2020-01-01T00:00:00Z (`getTime = 1577836800000`). -/
def psEnd20200101 : Militancia := ⟨1577750400000, 1577836800000, psParty⟩

/-- PS membership starting 2020-01-02T00:00:00Z: gap of exactly one day. -/
def psStart20200102 : Militancia := ⟨1577923200000, 1580000000000, psParty⟩

/-- PS membership starting 2020-01-02T00:00:01Z: gap of one day plus one
second. -/
def psStart20200102plus1s : Militancia := ⟨1577923201000, 1580000000000, psParty⟩

/-- PS membership starting 2020-01-03T00:00:00Z: gap of two days. -/
def psStart20200103 : Militancia := ⟨1578009600000, 1580000000000, psParty⟩

/-- RN membership starting 2020-01-02T00:00:00Z (different party, 1-day gap). -/
def rnStart20200102 : Militancia := ⟨1577923200000, 1580000000000, rnParty⟩

/-- PS membership over days 0-10 (timestamps in ms). -/
def psOverlapA : Militancia := ⟨0, 864000000, psParty⟩

/-- PS membership over days 5-20: starts before `psOverlapA` ends. -/
def psOverlapB : Militancia := ⟨432000000, 1728000000, psParty⟩

/-- A legislator currently affiliated to the given party (the membership
interval `[-1000, 1000]` contains the reference instant `now = 0`). -/
def mkLegislator (partyId partyName : String) : DiputadoPeriodo :=
  { Diputado :=
    { Id := 1, Nombre := "Ana", Nombre2 := "", ApellidoPaterno := "Pérez",
      ApellidoMaterno := "Soto", FechaNacimiento := "1980-01-01", RUT := "12345678",
      RUTDV := "5", Sexo := "Femenino",
      Militancias := .single ⟨-1000, 1000, ⟨partyId, partyName, partyId⟩⟩ } }

/-- 10 PC (left), 5 RN (right) and 3 DC (center) legislators. -/
def exampleLegislators : List DiputadoPeriodo :=
  List.replicate 10 (mkLegislator "PC" "Partido Comunista") ++
    List.replicate 5 (mkLegislator "RN" "Renovación Nacional") ++
      List.replicate 3 (mkLegislator "DC" "Partido Demócrata Cristiano")

/-- A legislator with no membership interval containing any instant. -/
def independentLegislator : DiputadoPeriodo :=
  { Diputado :=
    { Id := 2, Nombre := "Juan", Nombre2 := "", ApellidoPaterno := "Rojas",
      ApellidoMaterno := "Díaz", FechaNacimiento := "1975-01-01", RUT := "9876543",
      RUTDV := "K", Sexo := "Masculino", Militancias := .array [] } }

/-- The record produced for a single PS interval `[0, 1]`. -/
def singlePsRecord : MergedMilitancia := ⟨psParty, 0, 1, 1, [⟨0, 1, psParty⟩]⟩

unseal List.merge List.mergeSort

/-! ## Theorems -/

theorem newMergedEntry_eq_recordOfChunk (a : Militancia) :
    newMergedEntry a = recordOfChunk [a] := rfl

theorem extend_recordOfChunk (a b : Militancia) (t : List Militancia) :
    extendMergedEntry (recordOfChunk (a :: t)) b = recordOfChunk (a :: (t ++ [b])) := by
  simp [extendMergedEntry, recordOfChunk, List.getLastD_concat]

theorem canMergeWith_recordOfChunk (a b : Militancia) (t : List Militancia)
    (h : (t.getLastD a).Partido.Id = a.Partido.Id) :
    canMergeWith (recordOfChunk (a :: t)) b = canFollow (t.getLastD a) b := by
  simp only [canMergeWith, canFollow, recordOfChunk]
  rw [h]

theorem mergeRun_eq_chunksGo (rest : List Militancia) :
    ∀ (a : Militancia) (t : List Militancia),
      (t.getLastD a).Partido.Id = a.Partido.Id →
      mergeRun (recordOfChunk (a :: t)) rest = (chunksGo a t rest).map recordOfChunk := by
  induction rest with
  | nil => intro a t _; simp [mergeRun, chunksGo]
  | cons b rest ih =>
    intro a t h
    rw [mergeRun, chunksGo, canMergeWith_recordOfChunk a b t h]
    by_cases hc : canFollow (t.getLastD a) b
    · rw [if_pos hc, if_pos hc, extend_recordOfChunk]
      apply ih
      have hid : (t.getLastD a).Partido.Id = b.Partido.Id := by
        have := hc
        simp only [canFollow, Bool.and_eq_true, beq_iff_eq] at this
        exact this.1
      rw [List.getLastD_concat]
      exact hid.symm.trans h
    · rw [if_neg hc, if_neg hc, List.map_cons]
      rw [newMergedEntry_eq_recordOfChunk]
      exact congrArg _ (ih b [] rfl)

theorem mergeSorted_eq_chunks (l : List Militancia) :
    mergeSorted l = (chunks l).map recordOfChunk := by
  cases l with
  | nil => rfl
  | cons a rest =>
    rw [mergeSorted, chunks, newMergedEntry_eq_recordOfChunk]
    exact mergeRun_eq_chunksGo rest a [] rfl

theorem chunksGo_flatten (rest : List Militancia) :
    ∀ (a : Militancia) (t : List Militancia),
      (chunksGo a t rest).flatten = a :: (t ++ rest) := by
  induction rest with
  | nil => intro a t; simp [chunksGo]
  | cons b rest ih =>
    intro a t
    rw [chunksGo]
    by_cases hc : canFollow (t.getLastD a) b
    · rw [if_pos hc, ih a (t ++ [b])]
      simp
    · rw [if_neg hc, List.flatten_cons, ih b []]
      simp

theorem chunks_flatten (l : List Militancia) : (chunks l).flatten = l := by
  cases l with
  | nil => rfl
  | cons a rest => rw [chunks, chunksGo_flatten]; simp

theorem chunksGo_sublist (rest : List Militancia) :
    ∀ (a : Militancia) (t : List Militancia) (c : List Militancia),
      c ∈ chunksGo a t rest → c.Sublist (a :: (t ++ rest)) := by
  induction rest with
  | nil =>
    intro a t c hc
    simp only [chunksGo, List.mem_singleton] at hc
    subst hc; simp
  | cons b rest ih =>
    intro a t c hc
    rw [chunksGo] at hc
    by_cases hcf : canFollow (t.getLastD a) b
    · rw [if_pos hcf] at hc
      have := ih a (t ++ [b]) c hc
      simpa using this
    · rw [if_neg hcf, List.mem_cons] at hc
      rcases hc with rfl | hc
      · exact (List.sublist_append_left t (b :: rest)).cons₂ a
      · have := ih b [] c hc
        simp only [List.nil_append] at this
        exact ((this.trans (List.sublist_append_right t (b :: rest))).cons a)

theorem chunks_sublist (l : List Militancia) (c : List Militancia) :
    c ∈ chunks l → c.Sublist l := by
  cases l with
  | nil => intro h; simp [chunks] at h
  | cons a rest =>
    intro h
    have := chunksGo_sublist rest a [] c h
    simpa using this

theorem chunksGo_shape (rest : List Militancia) :
    ∀ (a : Militancia) (t : List Militancia),
      ∃ u l, chunksGo a t rest = (a :: (t ++ u)) :: l := by
  induction rest with
  | nil => intro a t; exact ⟨[], [], by simp [chunksGo]⟩
  | cons b rest ih =>
    intro a t
    rw [chunksGo]
    by_cases hc : canFollow (t.getLastD a) b
    · rw [if_pos hc]
      obtain ⟨u, l, hu⟩ := ih a (t ++ [b])
      exact ⟨[b] ++ u, l, by simpa using hu⟩
    · rw [if_neg hc]
      exact ⟨[], chunksGo b [] rest, by simp⟩

theorem chunksGo_ne_nil (rest : List Militancia) :
    ∀ (a : Militancia) (t : List Militancia) (c : List Militancia),
      c ∈ chunksGo a t rest → ∃ hd tl, c = hd :: tl := by
  induction rest with
  | nil =>
    intro a t c hc
    simp only [chunksGo, List.mem_singleton] at hc
    exact ⟨a, t, hc⟩
  | cons b rest ih =>
    intro a t c hc
    rw [chunksGo] at hc
    by_cases hcf : canFollow (t.getLastD a) b
    · rw [if_pos hcf] at hc
      exact ih a (t ++ [b]) c hc
    · rw [if_neg hcf, List.mem_cons] at hc
      rcases hc with rfl | hc
      · exact ⟨a, t, rfl⟩
      · exact ih b [] c hc

theorem getLast?_cons_getLastD {α : Type} (a : α) (l : List α) :
    (a :: l).getLast? = some (l.getLastD a) := by
  induction l generalizing a with
  | nil => rfl
  | cons b t ih => rw [List.getLast?_cons_cons, ih b, List.getLastD_cons]

theorem chunksGo_chain (rest : List Militancia) :
    ∀ (a : Militancia) (t : List Militancia),
      List.Chain' (fun x y => canFollow x y = true) (a :: t) →
      ∀ c ∈ chunksGo a t rest, List.Chain' (fun x y => canFollow x y = true) c := by
  induction rest with
  | nil =>
    intro a t hch c hc
    simp only [chunksGo, List.mem_singleton] at hc
    subst hc; exact hch
  | cons b rest ih =>
    intro a t hch c hc
    rw [chunksGo] at hc
    by_cases hcf : canFollow (t.getLastD a) b
    · rw [if_pos hcf] at hc
      refine ih a (t ++ [b]) ?_ c hc
      have hsplit : a :: (t ++ [b]) = (a :: t) ++ [b] := by simp
      rw [hsplit, List.chain'_append]
      refine ⟨hch, by simp, ?_⟩
      intro x hx y hy
      rw [getLast?_cons_getLastD] at hx
      simp only [Option.mem_def, Option.some.injEq, List.head?_cons] at hx hy
      subst hx; subst hy
      exact hcf
    · rw [if_neg hcf, List.mem_cons] at hc
      rcases hc with rfl | hc
      · exact hch
      · exact ih b [] (by simp) c hc

theorem chunksGo_boundary (rest : List Militancia) :
    ∀ (a : Militancia) (t : List Militancia),
      List.Chain' (fun c d => ∀ x ∈ c.getLast?, ∀ y ∈ d.head?, canFollow x y = false)
        (chunksGo a t rest) := by
  induction rest with
  | nil => intro a t; simp [chunksGo]
  | cons b rest ih =>
    intro a t
    rw [chunksGo]
    by_cases hcf : canFollow (t.getLastD a) b
    · rw [if_pos hcf]; exact ih a (t ++ [b])
    · rw [if_neg hcf, List.chain'_cons']
      refine ⟨?_, ih b []⟩
      intro d hd x hx y hy
      obtain ⟨u, l', hshape⟩ := chunksGo_shape rest b []
      rw [hshape] at hd
      simp only [List.head?_cons, Option.mem_def, Option.some.injEq] at hd
      subst hd
      rw [getLast?_cons_getLastD] at hx
      simp only [Option.mem_def, Option.some.injEq, List.head?_cons] at hx hy
      subst hx; subst hy
      exact Bool.eq_false_iff.mpr hcf

theorem sortMilitancias_pairwise (l : List Militancia) :
    (sortMilitancias l).Pairwise (fun a b => a.FechaInicio ≤ b.FechaInicio) := by
  have h := @List.sorted_mergeSort Militancia
    (fun a b => decide (a.FechaInicio ≤ b.FechaInicio))
    (fun a b c hab hbc => by
      simp only [decide_eq_true_eq] at *
      exact le_trans hab hbc)
    (fun a b => by
      simp only [Bool.or_eq_true, decide_eq_true_eq]
      exact le_total a.FechaInicio b.FechaInicio)
    l
  exact h.imp (fun hab => by simpa using hab)

/-- The consecutive-pair merge test, unfolded to the claim-level condition:
same party id and a gap in the closed interval `[0, 1 day]`. -/
theorem canFollow_iff (a b : Militancia) :
    canFollow a b = true ↔ sameParty01Gap a b := by
  simp [canFollow, arePeriodsSequential, sameParty01Gap, and_assoc]

/-! ## Helper lemmas for the layout engine -/

theorem bumpGroup_sum (acc : List (String × PartyGroup)) (partyId : String)
    (fresh : PartyGroup) (hfresh : fresh.count = 0) :
    ((bumpGroup acc partyId fresh).map (fun p => p.2.count)).sum
      = (acc.map (fun p => p.2.count)).sum + 1 := by
  induction acc with
  | nil => simp [bumpGroup, hfresh]
  | cons x rest ih =>
    obtain ⟨k, g⟩ := x
    rw [bumpGroup]
    by_cases hk : k = partyId
    · rw [if_pos hk]; simp; omega
    · rw [if_neg hk]; simp [ih]; omega

theorem bumpGroup_count_pos (acc : List (String × PartyGroup)) (partyId : String)
    (fresh : PartyGroup) (h : ∀ p ∈ acc, 1 ≤ p.2.count) :
    ∀ p ∈ bumpGroup acc partyId fresh, 1 ≤ p.2.count := by
  induction acc with
  | nil =>
    intro p hp
    simp only [bumpGroup, List.mem_singleton] at hp
    subst hp; simp
  | cons x rest ih =>
    obtain ⟨k, g⟩ := x
    intro p hp
    rw [bumpGroup] at hp
    by_cases hk : k = partyId
    · rw [if_pos hk, List.mem_cons] at hp
      rcases hp with rfl | hp
      · simp
      · exact h _ (by simp [hp])
    · rw [if_neg hk, List.mem_cons] at hp
      rcases hp with rfl | hp
      · exact h _ (by simp)
      · exact ih (fun q hq => h q (by simp [hq])) p hp

theorem bumpGroup_ne_nil (acc : List (String × PartyGroup)) (partyId : String)
    (fresh : PartyGroup) : bumpGroup acc partyId fresh ≠ [] := by
  cases acc with
  | nil => simp [bumpGroup]
  | cons x rest =>
    obtain ⟨k, g⟩ := x
    rw [bumpGroup]
    by_cases hk : k = partyId
    · rw [if_pos hk]; simp
    · rw [if_neg hk]; simp

theorem freshGroup_count (now : Int) (leg : DiputadoPeriodo) (partyId : String) :
    (freshGroup now leg partyId).count = 0 := rfl

theorem partyGroups_foldl_sum (now : Int) (legs : List DiputadoPeriodo) :
    ∀ acc : List (String × PartyGroup),
      ((legs.foldl
          (fun acc leg =>
            bumpGroup acc (partyIdOf now leg) (freshGroup now leg (partyIdOf now leg)))
          acc).map (fun p => p.2.count)).sum
        = (acc.map (fun p => p.2.count)).sum + legs.length := by
  induction legs with
  | nil => intro acc; simp
  | cons leg legs ih =>
    intro acc
    rw [List.foldl_cons, ih, bumpGroup_sum _ _ _ (freshGroup_count now leg _)]
    simp; omega

theorem partyGroupsOf_sum (now : Int) (legs : List DiputadoPeriodo) :
    ((partyGroupsOf now legs).map (fun p => p.2.count)).sum = legs.length := by
  have := partyGroups_foldl_sum now legs []
  simpa [partyGroupsOf] using this

theorem partyGroupsOf_count_pos (now : Int) (legs : List DiputadoPeriodo) :
    ∀ p ∈ partyGroupsOf now legs, 1 ≤ p.2.count := by
  have aux : ∀ (l : List DiputadoPeriodo) (acc : List (String × PartyGroup)),
      (∀ p ∈ acc, 1 ≤ p.2.count) →
      ∀ p ∈ l.foldl
          (fun acc leg =>
            bumpGroup acc (partyIdOf now leg) (freshGroup now leg (partyIdOf now leg)))
          acc, 1 ≤ p.2.count := by
    intro l
    induction l with
    | nil => intro acc h; simpa using h
    | cons leg legs ih =>
      intro acc h
      rw [List.foldl_cons]
      exact ih _ (bumpGroup_count_pos _ _ _ h)
  exact aux legs [] (by simp)

theorem sortPartiesDesc_perm (l : List (String × PartyGroup)) :
    (sortPartiesDesc l).Perm l :=
  List.mergeSort_perm l _

theorem sortPartiesDesc_sum (l : List (String × PartyGroup)) :
    ((sortPartiesDesc l).map (fun p => p.2.count)).sum
      = (l.map (fun p => p.2.count)).sum :=
  ((sortPartiesDesc_perm l).map _).sum_eq

theorem sortPartiesDesc_pairwise (l : List (String × PartyGroup)) :
    (sortPartiesDesc l).Pairwise (fun a b => b.2.count ≤ a.2.count) := by
  have h := @List.sorted_mergeSort (String × PartyGroup)
    (fun a b => decide (b.2.count ≤ a.2.count))
    (fun a b c hab hbc => by simp only [decide_eq_true_eq] at *; omega)
    (fun a b => by simp only [Bool.or_eq_true, decide_eq_true_eq]; omega)
    l
  exact h.imp (fun hab => by simpa using hab)

theorem alignment_filter_sum (l : List (String × PartyGroup))
    (f : String × PartyGroup → Nat) :
    ((l.filter (fun p => decide (p.2.alignment = .left))).map f).sum
      + ((l.filter (fun p => decide (p.2.alignment = .center))).map f).sum
      + ((l.filter (fun p => decide (p.2.alignment = .right))).map f).sum
      = (l.map f).sum := by
  induction l with
  | nil => simp
  | cons x rest ih =>
    cases h : x.2.alignment <;>
      simp only [List.filter_cons, h, decide_eq_true_eq, List.map_cons, List.sum_cons] <;>
      simp <;> omega

theorem sortedPartiesOf_sum (now : Int) (legs : List DiputadoPeriodo) :
    ((sortedPartiesOf now legs).map (fun p => p.2.count)).sum = legs.length := by
  rw [sortedPartiesOf]
  simp only [List.map_append, List.sum_append, List.map_reverse, List.sum_reverse]
  rw [sortPartiesDesc_sum, sortPartiesDesc_sum, sortPartiesDesc_sum]
  rw [alignment_filter_sum]
  exact partyGroupsOf_sum now legs

theorem sortedPartiesOf_count_pos (now : Int) (legs : List DiputadoPeriodo) :
    ∀ p ∈ sortedPartiesOf now legs, 1 ≤ p.2.count := by
  intro p hp
  rw [sortedPartiesOf] at hp
  simp only [List.mem_append, List.mem_reverse] at hp
  have extract : ∀ (pred : String × PartyGroup → Bool),
      p ∈ sortPartiesDesc ((partyGroupsOf now legs).filter pred) →
      p ∈ partyGroupsOf now legs := by
    intro pred hq
    rw [sortPartiesDesc, List.mem_mergeSort] at hq
    exact List.mem_of_mem_filter hq
  have hmem : p ∈ partyGroupsOf now legs := by
    rcases hp with (hp | hp) | hp
    · exact extract _ hp
    · exact extract _ hp
    · exact extract _ hp
  exact partyGroupsOf_count_pos now legs p hmem

theorem sortedPartiesOf_ne_nil (now : Int) (legs : List DiputadoPeriodo)
    (h : legs ≠ []) : sortedPartiesOf now legs ≠ [] := by
  intro hnil
  have hsum := sortedPartiesOf_sum now legs
  rw [hnil] at hsum
  simp at hsum
  exact h (List.length_eq_zero.mp hsum.symm)

theorem get?_eq_head?_drop {α : Type} (l : List α) (n : Nat) :
    l.get? n = (l.drop n).head? := by
  induction l generalizing n with
  | nil => simp
  | cons x xs ih =>
    cases n with
    | zero => simp
    | succ m => simp only [List.get?_cons_succ, List.drop_succ_cons]; exact ih m

theorem drop_succ_eq_tail_drop {α : Type} (l : List α) (n : Nat) :
    l.drop (n + 1) = (l.drop n).tail := by
  induction l generalizing n with
  | nil => simp
  | cons x xs ih =>
    cases n with
    | zero => simp
    | succ m => simp only [List.drop_succ_cons]; exact ih m

theorem replicate_pred_cons {α : Type} (c : Nat) (h : 1 ≤ c) (x : α) :
    x :: List.replicate (c - 1) x = List.replicate c x := by
  cases c with
  | zero => omega
  | succ m => simp [List.replicate_succ]

/-- Full specification of the assignment loop when started on the current
party `g` with `used ≤ g.count` seats already consumed, `rest` the parties
still to come (`SP.drop (idx + 1)`), all of them nonempty, and fuel `n` equal
to the number of seats those parties still have to fill: the loop succeeds,
colors the seats in contiguous per-party blocks, and consumes the first `n`
positions in order. -/
theorem assignGo_spec (SP : List (String × PartyGroup)) :
    ∀ (n : Nat) (ps : List SeatPosition) (g : PartyGroup) (idx used : Nat)
      (rest : List (String × PartyGroup)),
      SP.drop (idx + 1) = rest →
      used ≤ g.count →
      (∀ p ∈ rest, 1 ≤ p.2.count) →
      n = (g.count - used) + (rest.map (fun p => p.2.count)).sum →
      n ≤ ps.length →
      ∃ l, assignGo SP n ps idx used (some g) = some l ∧
        l.map (fun s => (s.color, s.partyAlias)) =
          List.replicate (g.count - used) (g.color, g.partyAlias) ++
            (rest.map (fun p => List.replicate p.2.count (p.2.color, p.2.partyAlias))).flatten ∧
        l.map Seat.pos = ps.take n := by
  intro n
  induction n with
  | zero =>
    intro ps g idx used rest hdrop hused hpos hn hlen
    refine ⟨[], rfl, ?_, by simp⟩
    have h1 : g.count - used = 0 := by omega
    have h3 : rest = [] := by
      cases rest with
      | nil => rfl
      | cons p r =>
        exfalso
        have hp1 := hpos p (by simp)
        simp only [List.map_cons, List.sum_cons] at hn
        omega
    subst h3
    simp [h1]
  | succ n ih =>
    intro ps g idx used rest hdrop hused hpos hn hlen
    cases ps with
    | nil => simp at hlen
    | cons position psRest =>
      by_cases hfull : g.count ≤ used
      · have husedEq : used = g.count := le_antisymm hused hfull
        cases rest with
        | nil => rw [husedEq] at hn; simp at hn
        | cons p rest2 =>
          have hget : SP.get? (idx + 1) = some p := by
            rw [get?_eq_head?_drop, hdrop]; rfl
          have hadv : advanceParty SP idx used g = (idx + 1, 0, p.2) := by
            rw [advanceParty, if_pos hfull, hget]
          have hdrop2 : SP.drop (idx + 1 + 1) = rest2 := by
            rw [drop_succ_eq_tail_drop, hdrop]; rfl
          have hp1 : 1 ≤ p.2.count := hpos p (by simp)
          obtain ⟨l, hl, hcolors, hposes⟩ := ih psRest p.2 (idx + 1) 1 rest2 hdrop2 hp1
            (fun q hq => hpos q (by simp [hq]))
            (by simp only [List.map_cons, List.sum_cons] at hn; omega)
            (by simpa using hlen)
          refine ⟨⟨position, p.2.color, p.2.partyAlias⟩ :: l, ?_, ?_, ?_⟩
          · rw [assignGo, hadv]; simp [hl]
          · have h0 : g.count - used = 0 := by omega
            simp only [List.map_cons, hcolors, h0, List.replicate_zero,
              List.nil_append, List.flatten_cons]
            rw [← List.cons_append, replicate_pred_cons p.2.count hp1]
          · simp only [List.map_cons, hposes, List.take_succ_cons]
      · have hadv : advanceParty SP idx used g = (idx, used, g) := by
          rw [advanceParty, if_neg hfull]
        obtain ⟨l, hl, hcolors, hposes⟩ := ih psRest g idx (used + 1) rest hdrop
          (by omega) hpos (by omega) (by simpa using hlen)
        refine ⟨⟨position, g.color, g.partyAlias⟩ :: l, ?_, ?_, ?_⟩
        · rw [assignGo, hadv]; simp [hl]
        · simp only [List.map_cons, hcolors]
          rw [← List.cons_append]
          congr 1
          have h2 : g.count - (used + 1) = (g.count - used) - 1 := by omega
          rw [h2, replicate_pred_cons (g.count - used) (by omega)]
        · simp only [List.map_cons, hposes, List.take_succ_cons]

theorem seatsPerRowArray_eq (totalSeats : Nat) :
    seatsPerRowArray totalSeats = [20, 28, 36, 44, (totalSeats : Int) - 128] := by
  have hr : List.range chartRows = [0, 1, 2, 3, 4] := rfl
  rw [seatsPerRowArray, hr]
  simp [baseSeatsPerRow, chartRows, List.set]
  omega

theorem rowPositions_length (size : ℚ) (row : Nat) (k : Int) :
    (rowPositions size row k).length = k.toNat := by
  rw [rowPositions, List.length_map, List.length_range]

theorem allPositions_length (size : ℚ) (totalSeats : Nat) :
    (allPositions size totalSeats).length = 128 + ((totalSeats : Int) - 128).toNat := by
  have hr : List.range chartRows = [0, 1, 2, 3, 4] := rfl
  rw [allPositions, hr, seatsPerRowArray_eq]
  simp only [List.map_cons, List.map_nil, List.flatten_cons, List.flatten_nil,
    List.length_append, List.length_nil, rowPositions_length, List.getD_cons_zero,
    List.getD_cons_succ]
  omega

theorem sortByAngleDesc_length (positions : List SeatPosition) :
    (sortByAngleDesc positions).length = positions.length :=
  List.length_mergeSort positions

theorem totalSeats_le_positions_length (size : ℚ) (totalSeats : Nat) :
    totalSeats ≤ (sortByAngleDesc (allPositions size totalSeats)).length := by
  rw [sortByAngleDesc_length, allPositions_length]; omega

theorem merged_eq_chunks (ms : Militancias) :
    mergeSequentialMilitancias ms
      = (chunks (sortMilitancias (normalizeMilitancias ms))).map recordOfChunk := by
  rw [mergeSequentialMilitancias, mergeSorted_eq_chunks]

theorem chunks_chain (l : List Militancia) :
    ∀ c ∈ chunks l, List.Chain' (fun x y => canFollow x y = true) c := by
  cases l with
  | nil => intro c hc; simp [chunks] at hc
  | cons a rest => exact chunksGo_chain rest a [] (by simp)

theorem chunks_boundary (l : List Militancia) :
    List.Chain' (fun c d => ∀ x ∈ c.getLast?, ∀ y ∈ d.head?, canFollow x y = false)
      (chunks l) := by
  cases l with
  | nil => simp [chunks]
  | cons a rest => exact chunksGo_boundary rest a []

theorem chunks_mem_ne_nil (l : List Militancia) :
    ∀ c ∈ chunks l, ∃ hd tl, c = hd :: tl := by
  cases l with
  | nil => intro c hc; simp [chunks] at hc
  | cons a rest => exact chunksGo_ne_nil rest a []

theorem recordOfChunk_orig (hd : Militancia) (tl : List Militancia) :
    (recordOfChunk (hd :: tl)).originalMilitancias = hd :: tl := rfl

theorem chain'_all_id_eq (tl : List Militancia) :
    ∀ hd : Militancia,
      List.Chain' (fun x y => x.Partido.Id = y.Partido.Id) (hd :: tl) →
      ∀ x ∈ hd :: tl, x.Partido.Id = hd.Partido.Id := by
  induction tl with
  | nil => intro hd _ x hx; simp at hx; subst hx; rfl
  | cons b tl ih =>
    intro hd hch x hx
    rw [List.chain'_cons] at hch
    rcases List.mem_cons.mp hx with rfl | hx
    · rfl
    · exact (ih b hch.2 x hx).trans hch.1.symm

/-- The layout result on any input: assignment succeeds, colors the seats in
contiguous per-party blocks following the legend order, and uses the pooled,
angle-sorted positions in order. -/
theorem layout_seats_eq (now : Int) (legs : List DiputadoPeriodo) (size : ℚ) :
    ∃ l, (layout now legs size).seats = some l ∧
      l.map (fun s => (s.color, s.partyAlias)) =
        ((sortedPartiesOf now legs).map
          (fun p => List.replicate p.2.count (p.2.color, p.2.partyAlias))).flatten ∧
      l.map Seat.pos
        = (sortByAngleDesc (allPositions size legs.length)).take legs.length := by
  by_cases hlegs : legs = []
  · subst hlegs
    refine ⟨[], rfl, ?_, by simp⟩
    have hsp : sortedPartiesOf now [] = [] := by
      simp [sortedPartiesOf, partyGroupsOf, sortPartiesDesc]
    simp [hsp]
  · have hne := sortedPartiesOf_ne_nil now legs hlegs
    cases hSP : sortedPartiesOf now legs with
    | nil => exact absurd hSP hne
    | cons p SPtail =>
      have hsum := sortedPartiesOf_sum now legs
      rw [hSP] at hsum
      simp only [List.map_cons, List.sum_cons] at hsum
      obtain ⟨l, hl, hcolors, hposes⟩ :=
        assignGo_spec (p :: SPtail) legs.length
          (sortByAngleDesc (allPositions size legs.length)) p.2 0 0 SPtail
          (by simp)
          (Nat.zero_le _)
          (fun q hq => sortedPartiesOf_count_pos now legs q (by rw [hSP]; simp [hq]))
          (by omega)
          (totalSeats_le_positions_length size legs.length)
      refine ⟨l, ?_, ?_, hposes⟩
      · rw [layout]
        simp only [hSP, List.head?_cons]
        exact hl
      · rw [hcolors]
        simp

/-- The legacy chart's seat count: the row loops, capped by the
`seats.length < totalSeats` guard, push exactly `totalSeats` seats (each row
offers at least `⌈totalSeats/5⌉` seats, so five rows always suffice). -/
theorem legacyPositions_length (size : ℚ) (totalSeats : Nat) :
    (legacyPositions size totalSeats).length = totalSeats := by
  have hr : List.range chartRows = [0, 1, 2, 3, 4] := rfl
  rw [legacyPositions, hr]
  simp only [List.foldl_cons, List.foldl_nil, List.length_append, List.length_map,
    List.length_range, List.length_nil]
  simp only [legacySeatsInRow, legacySeatsPerRow, chartRows]
  omega


/-! ## Claim theorems -/

/-- C1: for every legislator list and every diameter the layout returns
exactly one seat per legislator — `layout(...).seats.length` equals
`legislators.length` — for all totals (below 128, between 128 and 180, above
180, and zero); and the legacy chart in the same file pushes exactly
`legislators.length` seats as well. -/
theorem seats_length_exact (now : Int) (legs : List DiputadoPeriodo) (size : ℚ) :
    Option.map List.length (layout now legs size).seats = some legs.length ∧
    (legacyPositions size legs.length).length = legs.length := by
  constructor
  · obtain ⟨l, hl, _, hposes⟩ := layout_seats_eq now legs size
    rw [hl, Option.map_some']
    congr 1
    have h1 := congrArg List.length hposes
    rw [List.length_map, List.length_take] at h1
    have h2 := totalSeats_le_positions_length size legs.length
    omega
  · exact legacyPositions_length size legs.length

/-- C1 witness: the first conjunct instantiated at a concrete nonempty input
(the hypotheses of `seats_length_exact` are only its universally quantified
arguments, so this instantiation also serves as a concrete evaluation). -/
theorem seats_length_exact_witness :
    Option.map List.length (layout 0 exampleLegislators 300).seats = some 18 ∧
    (legacyPositions 300 18).length = 18 := by
  have h := seats_length_exact 0 exampleLegislators 300
  simpa [exampleLegislators] using h

/-- C3 (failing-input evaluation): with 129 legislators the row allocation is
`[20, 28, 36, 44, 1]`, and the single seat of the outermost row is generated
with angle `NaN` (modelled `none`) — `0/0` is not special-cased — rather than
the angle `π/2` (`anglePi = some (1/2)`) the specification describes. -/
theorem single_seat_row_has_nan_angle :
    seatsPerRowArray 129 = [20, 28, 36, 44, 1] ∧
    ((allPositions 300 129).filter (fun p => p.row == 4)).map
        (fun p => p.anglePi) = [none] := by
  constructor
  · rw [seatsPerRowArray_eq]; norm_num
  · decide

/-- C6: the assignment walks the legend's party sequence and the pooled,
angle-descending-sorted positions in lockstep, so the seat list decomposes as
contiguous per-party blocks — exactly `count` consecutive seats per party, in
legend order — and seat `i` occupies the `i`-th pooled sorted position,
independent of which concentric row each position came from. -/
theorem seats_contiguous_blocks (now : Int) (legs : List DiputadoPeriodo) (size : ℚ) :
    Option.map (List.map (fun s => (s.color, s.partyAlias))) (layout now legs size).seats
      = some (((sortedPartiesOf now legs).map
          (fun p => List.replicate p.2.count (p.2.color, p.2.partyAlias))).flatten) ∧
    Option.map (List.map Seat.pos) (layout now legs size).seats
      = some ((sortByAngleDesc (allPositions size legs.length)).take legs.length) := by
  obtain ⟨l, hl, hcolors, hposes⟩ := layout_seats_eq now legs size
  rw [hl]
  constructor
  · simp [hcolors]
  · simp [hposes]

/-- C8: an empty legislator list yields an empty seat list and an empty
legend, with no failure (the assignment loop runs zero iterations and never
dereferences the absent current party group — the result is `some []`, not
`none`). -/
theorem empty_input_empty_layout (now : Int) (size : ℚ) :
    (layout now [] size).seats = some [] ∧ (layout now [] size).legend = [] := by
  constructor
  · rfl
  · show sortedPartiesOf now [] = []
    simp [sortedPartiesOf, partyGroupsOf, sortPartiesDesc]

/-- C9: the layout is a deterministic function of the legislator list, the
diameter, and the clock instant threaded through current-party resolution:
two runs on equal inputs produce equal seat and legend sequences (the model
has no other state a run could read). -/
theorem layout_deterministic (now1 now2 : Int) (legs1 legs2 : List DiputadoPeriodo)
    (size1 size2 : ℚ) (hnow : now1 = now2) (hlegs : legs1 = legs2)
    (hsize : size1 = size2) :
    layout now1 legs1 size1 = layout now2 legs2 size2 := by
  subst hnow; subst hlegs; subst hsize; rfl

/-- C9 witness: `layout_deterministic` applied at a concrete input. -/
theorem layout_deterministic_witness :
    layout 0 exampleLegislators 300 = layout 0 exampleLegislators 300 :=
  layout_deterministic 0 0 exampleLegislators exampleLegislators 300 300 rfl rfl rfl

/-- C5: the legend (= the party sequence used for seat assignment) is the
left bucket stably sorted by descending count, then the center bucket, then
the right bucket reversed (so the largest right party is last); each bucket is
alignment-homogeneous, the left and center parts are descending in count, the
reversed right part ascending; concretely, for 10 PC (left), 5 RN (right) and
3 DC (center) the legend reads `[PC, DC, RN]`. -/
theorem legend_alignment_order :
    (∀ (now : Int) (legs : List DiputadoPeriodo) (size : ℚ),
      ∃ L C R : List (String × PartyGroup),
        (layout now legs size).legend = L ++ C ++ R ∧
        L = sortPartiesDesc ((partyGroupsOf now legs).filter
              (fun p => decide (p.2.alignment = .left))) ∧
        C = sortPartiesDesc ((partyGroupsOf now legs).filter
              (fun p => decide (p.2.alignment = .center))) ∧
        R = (sortPartiesDesc ((partyGroupsOf now legs).filter
              (fun p => decide (p.2.alignment = .right)))).reverse ∧
        (∀ p ∈ L, p.2.alignment = .left) ∧
        (∀ p ∈ C, p.2.alignment = .center) ∧
        (∀ p ∈ R, p.2.alignment = .right) ∧
        L.Pairwise (fun a b => b.2.count ≤ a.2.count) ∧
        C.Pairwise (fun a b => b.2.count ≤ a.2.count) ∧
        R.Pairwise (fun a b => a.2.count ≤ b.2.count)) ∧
    (layout 0 exampleLegislators 300).legend.map (fun p => (p.1, p.2.count))
      = [("PC", 10), ("DC", 3), ("RN", 5)] := by
  constructor
  · intro now legs size
    refine ⟨_, _, _, rfl, rfl, rfl, rfl, ?_, ?_, ?_, ?_, ?_, ?_⟩
    · intro p hp
      rw [sortPartiesDesc, List.mem_mergeSort, List.mem_filter] at hp
      simpa using hp.2
    · intro p hp
      rw [sortPartiesDesc, List.mem_mergeSort, List.mem_filter] at hp
      simpa using hp.2
    · intro p hp
      rw [List.mem_reverse, sortPartiesDesc, List.mem_mergeSort, List.mem_filter] at hp
      simpa using hp.2
    · exact sortPartiesDesc_pairwise _
    · exact sortPartiesDesc_pairwise _
    · exact (List.pairwise_reverse).mpr (sortPartiesDesc_pairwise _)
  · decide

/-- C2 counterexample: two consecutive same-party intervals whose dates
overlap (the second starts before the first ends) are NOT merged — the
consolidator produces two separate single-period records, refuting the claim
that a negative gap still merges. -/
theorem overlap_not_merged_counterexample :
    (mergeSequentialMilitancias (.array [psOverlapA, psOverlapB])).length = 2 ∧
    (mergeSequentialMilitancias (.array [psOverlapA, psOverlapB])).map
        (fun rec => rec.periodCount) = [1, 1] := by
  decide

/-- C2 (amended): whenever the next interval's start date is strictly earlier
than the last merged record's end date (a negative gap, i.e. overlap), the
merge scan does NOT merge: `arePeriodsSequential` fails its `diffInDays >= 0`
test and a new `MergedMilitancia` is started (the pair is still not flagged as
invalid — both plain records are emitted). -/
theorem overlap_starts_new_record (lastMerged : MergedMilitancia) (b : Militancia)
    (rest : List Militancia) (h : b.FechaInicio < lastMerged.FechaTermino) :
    mergeRun lastMerged (b :: rest) = lastMerged :: mergeRun (newMergedEntry b) rest := by
  have hfalse : canMergeWith lastMerged b = false := by
    rw [Bool.eq_false_iff]
    intro hTrue
    simp only [canMergeWith, arePeriodsSequential, Bool.and_eq_true,
      decide_eq_true_eq] at hTrue
    omega
  simp [mergeRun, hfalse]

/-- C2 witness: `overlap_starts_new_record` applied to the concrete
overlapping pair. -/
theorem overlap_starts_new_record_witness :
    mergeRun (newMergedEntry psOverlapA) [psOverlapB]
      = newMergedEntry psOverlapA :: mergeRun (newMergedEntry psOverlapB) [] :=
  overlap_starts_new_record (newMergedEntry psOverlapA) psOverlapB [] (by decide)

/-- C4: consecutive same-party intervals of the start-date-sorted order end
up in the same merged record exactly when the gap (next start minus previous
end) lies in the closed range `[0, 1 day]`: inside every record consecutive
source intervals satisfy `sameParty01Gap`, across a record boundary the pair
never does, the records partition the sorted sequence, every record is
party-homogeneous (different parties never merge); concretely, an end date
2020-01-01 followed by a start 2020-01-02 merges into one record with
`periodCount = 2`, while one day plus one second, two days, or a different
party each leave two separate records. -/
theorem merge_iff_gap_in_unit_interval :
    (∀ ms : Militancias,
      (∀ rec ∈ mergeSequentialMilitancias ms,
        rec.originalMilitancias.Chain' sameParty01Gap) ∧
      (∀ rec ∈ mergeSequentialMilitancias ms, ∀ m ∈ rec.originalMilitancias,
        m.Partido.Id = rec.Partido.Id) ∧
      (mergeSequentialMilitancias ms).Chain' (fun r1 r2 =>
        ∀ a ∈ r1.originalMilitancias.getLast?, ∀ b ∈ r2.originalMilitancias.head?,
          ¬ sameParty01Gap a b) ∧
      ((mergeSequentialMilitancias ms).map
          (fun rec => rec.originalMilitancias)).flatten
        = sortMilitancias (normalizeMilitancias ms)) ∧
    (mergeSequentialMilitancias (.array [psEnd20200101, psStart20200102])).map
        (fun rec => rec.periodCount) = [2] ∧
    (mergeSequentialMilitancias (.array [psEnd20200101, psStart20200102plus1s])).map
        (fun rec => rec.periodCount) = [1, 1] ∧
    (mergeSequentialMilitancias (.array [psEnd20200101, psStart20200103])).map
        (fun rec => rec.periodCount) = [1, 1] ∧
    (mergeSequentialMilitancias (.array [psEnd20200101, rnStart20200102])).map
        (fun rec => rec.periodCount) = [1, 1] := by
  refine ⟨?_, by decide, by decide, by decide, by decide⟩
  intro ms
  refine ⟨?_, ?_, ?_, ?_⟩
  · intro rec hrec
    rw [merged_eq_chunks] at hrec
    obtain ⟨c, hc, rfl⟩ := List.mem_map.mp hrec
    obtain ⟨hd, tl, rfl⟩ := chunks_mem_ne_nil _ c hc
    rw [recordOfChunk_orig]
    exact (chunks_chain _ _ hc).imp (fun a b h => (canFollow_iff a b).mp h)
  · intro rec hrec m hm
    rw [merged_eq_chunks] at hrec
    obtain ⟨c, hc, rfl⟩ := List.mem_map.mp hrec
    obtain ⟨hd, tl, rfl⟩ := chunks_mem_ne_nil _ c hc
    rw [recordOfChunk_orig] at hm
    have hch : List.Chain' (fun x y => x.Partido.Id = y.Partido.Id) (hd :: tl) :=
      (chunks_chain _ _ hc).imp (fun a b h => ((canFollow_iff a b).mp h).1)
    exact chain'_all_id_eq tl hd hch m hm
  · rw [merged_eq_chunks, List.chain'_map]
    refine (chunks_boundary _).imp ?_
    intro c d h a ha b hb
    match c, d with
    | [], _ => simp [recordOfChunk] at ha
    | _ :: _, [] => simp [recordOfChunk] at hb
    | chd :: ctl, dhd :: dtl =>
      rw [recordOfChunk_orig] at ha hb
      intro hgap
      have := h a ha b hb
      rw [← canFollow_iff] at hgap
      simp [this] at hgap
  · rw [merged_eq_chunks, List.map_map]
    have hid : ∀ c ∈ chunks (sortMilitancias (normalizeMilitancias ms)),
        ((fun rec => rec.originalMilitancias) ∘ recordOfChunk) c = id c := by
      intro c hc
      obtain ⟨hd, tl, rfl⟩ := chunks_mem_ne_nil _ c hc
      simp [recordOfChunk]
    rw [List.map_congr_left hid, List.map_id]
    exact chunks_flatten _

/-- C4 witness: the within-record chain conjunct applied to the concrete
one-day-gap input whose two intervals merge into one record. -/
theorem merge_iff_gap_in_unit_interval_witness :
    ∀ rec ∈ mergeSequentialMilitancias (.array [psEnd20200101, psStart20200102]),
      rec.originalMilitancias.Chain' sameParty01Gap :=
  (merge_iff_gap_in_unit_interval.1 (.array [psEnd20200101, psStart20200102])).1

/-- C7: every merged record satisfies the invariants `periodCount ≥ 1`,
`periodCount = originalMilitancias.length`, `originalMilitancias` sorted
ascending by start date, `FechaInicio` equal to the first original interval's
start, and `FechaTermino` equal to the last original interval's end — the
invariants survive every in-place extension of the scan because they hold of
the final records for every input. -/
theorem merged_record_invariants :
    ∀ ms : Militancias, ∀ rec ∈ mergeSequentialMilitancias ms,
      1 ≤ rec.periodCount ∧
      rec.periodCount = rec.originalMilitancias.length ∧
      rec.originalMilitancias.Pairwise (fun a b => a.FechaInicio ≤ b.FechaInicio) ∧
      (∀ x ∈ rec.originalMilitancias.head?, rec.FechaInicio = x.FechaInicio) ∧
      (∀ x ∈ rec.originalMilitancias.getLast?, rec.FechaTermino = x.FechaTermino) := by
  intro ms rec hrec
  rw [merged_eq_chunks] at hrec
  obtain ⟨c, hc, rfl⟩ := List.mem_map.mp hrec
  obtain ⟨hd, tl, rfl⟩ := chunks_mem_ne_nil _ c hc
  refine ⟨by simp [recordOfChunk], by simp [recordOfChunk], ?_, ?_, ?_⟩
  · rw [recordOfChunk_orig]
    exact List.Pairwise.sublist (chunks_sublist _ _ hc)
      (sortMilitancias_pairwise (normalizeMilitancias ms))
  · rw [recordOfChunk_orig]
    intro x hx
    simp only [List.head?_cons, Option.mem_def, Option.some.injEq] at hx
    subst hx
    rfl
  · rw [recordOfChunk_orig]
    intro x hx
    rw [getLast?_cons_getLastD] at hx
    simp only [Option.mem_def, Option.some.injEq] at hx
    subst hx
    rfl

/-- C7 witness: `merged_record_invariants` applied to the single-interval
input, whose unique record is `singlePsRecord`. -/
theorem merged_record_invariants_witness :
    1 ≤ singlePsRecord.periodCount ∧
    singlePsRecord.periodCount = singlePsRecord.originalMilitancias.length ∧
    singlePsRecord.originalMilitancias.Pairwise
      (fun a b => a.FechaInicio ≤ b.FechaInicio) ∧
    (∀ x ∈ singlePsRecord.originalMilitancias.head?,
      singlePsRecord.FechaInicio = x.FechaInicio) ∧
    (∀ x ∈ singlePsRecord.originalMilitancias.getLast?,
      singlePsRecord.FechaTermino = x.FechaTermino) :=
  merged_record_invariants (.array [⟨0, 1, psParty⟩]) singlePsRecord (by decide)

/-- C10: the current-party lookup returns the first interval, in normalized
order, whose date range contains `now` (when several contain it the
earliest-listed wins), and `none` when no interval does; a legislator with no
current party is bucketed as `"IND"` with the gray `#808080` color and center
alignment. -/
theorem getCurrentMilitancia_spec :
    ∀ (now : Int) (leg : DiputadoPeriodo),
      (∀ m, getCurrentMilitancia now leg.Diputado = some m →
        (m.FechaInicio ≤ now ∧ now ≤ m.FechaTermino) ∧
        ∃ pre suf, normalizeMilitancias leg.Diputado.Militancias = pre ++ m :: suf ∧
          ∀ x ∈ pre, ¬(x.FechaInicio ≤ now ∧ now ≤ x.FechaTermino)) ∧
      (getCurrentMilitancia now leg.Diputado = none ↔
        ∀ m ∈ normalizeMilitancias leg.Diputado.Militancias,
          ¬(m.FechaInicio ≤ now ∧ now ≤ m.FechaTermino)) ∧
      (getCurrentMilitancia now leg.Diputado = none →
        partyIdOf now leg = "IND" ∧
        partyGroupsOf now [leg] =
          [("IND", { partyName := "Independiente", partyAlias := "IND", count := 1,
                     color := "#808080", alignment := .center })]) := by
  intro now leg
  refine ⟨?_, ?_, ?_⟩
  · intro m hm
    simp only [getCurrentMilitancia] at hm
    rw [List.find?_eq_some] at hm
    obtain ⟨hpm, as, bs, heq, hall⟩ := hm
    refine ⟨by simpa [containsNow] using hpm, as, bs, heq, ?_⟩
    intro x hx hcontra
    have hx2 := hall x hx
    have hx3 : containsNow now x = true := by
      simp only [containsNow, Bool.and_eq_true, decide_eq_true_eq]
      exact hcontra
    simp [hx3] at hx2
  · constructor
    · intro h m hm
      have := List.find?_eq_none.mp h m hm
      simpa [containsNow] using this
    · intro h
      apply List.find?_eq_none.mpr
      intro x hx
      simpa [containsNow] using h x hx
  · intro h
    have hid : partyIdOf now leg = "IND" := by simp [partyIdOf, h]
    refine ⟨hid, ?_⟩
    have hcolor : partyColor "IND" = "#808080" := by decide
    have halign : partyAlignment "IND" = Alignment.center := by decide
    simp only [partyGroupsOf, List.foldl_cons, List.foldl_nil, hid]
    simp [bumpGroup, freshGroup, h, hcolor, halign]

/-- C10 witness: `getCurrentMilitancia_spec` applied to the legislator with
no containing interval: the lookup is `none` and the grouping yields the gray,
center-aligned `"IND"` bucket. -/
theorem getCurrentMilitancia_spec_witness :
    partyIdOf 0 independentLegislator = "IND" ∧
    partyGroupsOf 0 [independentLegislator] =
      [("IND", { partyName := "Independiente", partyAlias := "IND", count := 1,
                 color := "#808080", alignment := .center })] :=
  (getCurrentMilitancia_spec 0 independentLegislator).2.2 (by decide)

end CamaraAbierta
